import Mathlib

/-!
Verification development for the dilution-constraint builder of the
GEM-utilities repository (module gem_utilities/dilution_constraints.py).

The Python module operates on a Cobrapy model: a collection of metabolites,
reactions (with flux bounds and signed stoichiometry) and solver constraints.
We embed that data model shallowly: machine floats used for bounds become an
extended-rational type (the code only ever compares bounds with 0 and copies
them, so no float rounding is observable), reactions carry their stoichiometry
as an association list from metabolites to rational coefficients, and an
optlang linear expression is an association list from flux variables (the
forward and the reverse variable of a reaction, keyed by reaction id) to
rational coefficients, compared through its coefficient function, which is
exactly the canonical-form semantics optlang/sympy gives sums of variables.

Mutation is embedded by state passing: add_dilution_constraints receives the
given model as a value, copies it (value copy embeds the deep copy on line 52
of the source), threads every mutation through the copy, and the paired
variant returns alongside the result the final state of the caller model,
which encodes the frame property that only the copy is ever touched.
Python exceptions become an Except value: ValueError for the element-type
validation and KeyError for a failed get_by_id lookup.
-/

/-- Extended value for reaction flux bounds: a finite rational, plus the two
infinities that Cobrapy bounds may hold. -/
inductive Flt where
  | ninf : Flt
  | fin (q : ℚ) : Flt
  | inf : Flt
deriving DecidableEq, Repr

/-- Strict order on bound values, as Python compares floats. -/
def Flt.lt : Flt → Flt → Bool
  | .ninf, .ninf => false
  | .ninf, _ => true
  | .fin _, .ninf => false
  | .fin a, .fin b => decide (a < b)
  | .fin _, .inf => true
  | .inf, _ => false

/-- A metabolite: identity is the string id, plus a display name. -/
structure Metabolite where
  id : String
  name : String
deriving DecidableEq, Repr

/-- A reaction: string id, display name, flux bounds, stoichiometry as an
association list from metabolites to signed rational coefficients, and the
gene-reaction rule string. -/
structure Reaction where
  id : String
  name : String
  lower_bound : Flt
  upper_bound : Flt
  stoich : List (Metabolite × ℚ)
  gene_reaction_rule : String
deriving DecidableEq, Repr

/-- The fresh Reaction the Cobrapy constructor returns for a given id:
empty name, empty stoichiometry, and the configuration default bounds
(lower 0, upper 1000). -/
def cobra_reaction (i : String) : Reaction :=
  { id := i
    name := ""
    lower_bound := .fin 0
    upper_bound := .fin 1000
    stoich := []
    gene_reaction_rule := "" }

/-- Cobrapy reversibility: lower_bound < 0 and upper_bound > 0. -/
def Reaction.reversibility (r : Reaction) : Bool :=
  r.lower_bound.lt (.fin 0) && (Flt.fin 0).lt r.upper_bound

/-- Cobrapy boundary predicate: the reaction touches exactly one
metabolite (exchange, sink and demand reactions). -/
def Reaction.boundary (r : Reaction) : Bool :=
  r.stoich.length == 1

/-- A flux variable of the LP problem: the forward or the reverse variable
of the reaction with the given id. -/
inductive FluxVar where
  | fwd (rid : String) : FluxVar
  | rev (rid : String) : FluxVar
deriving DecidableEq, Repr

/-- A linear expression over flux variables, as an association list of
variable-coefficient pairs; sympy canonicalizes sums, so the meaning of an
expression is its coefficient function, computed by exprCoeff. -/
abbrev LinExpr := List (FluxVar × ℚ)

/-- The coefficient of a variable in a linear expression. -/
def exprCoeff (e : LinExpr) (v : FluxVar) : ℚ :=
  (e.map (fun p => if p.1 = v then p.2 else 0)).sum

/-- An optlang constraint: name, linear expression, and rational bounds
(the source always builds them with lb = ub = 0). -/
structure Constraint where
  name : String
  expr : LinExpr
  lb : ℚ
  ub : ℚ
deriving DecidableEq, Repr

/-- A Cobrapy model: metabolites, reactions, and the extra solver
constraints registered with add_cons_vars. -/
structure Model where
  metabolites : List Metabolite
  reactions : List Reaction
  constraints : List Constraint
deriving DecidableEq, Repr

/-- model.metabolites.get_by_id: the first metabolite with the given id,
none when the lookup raises KeyError. -/
def Model.getMetById (model : Model) (i : String) : Option Metabolite :=
  model.metabolites.find? (fun m => m.id == i)

/-- Cobrapy Model.add_reactions: reactions whose id is already present in the
model are silently dropped (the existing filter), the rest are appended, and
any of their metabolites not yet in the model are added to it. -/
def Model.add_reactions (model : Model) (rxns : List Reaction) : Model :=
  let pruned := rxns.filter (fun r => !(model.reactions.any (fun r0 => r0.id == r.id)))
  let mets := pruned.foldl
    (fun acc r => r.stoich.foldl
      (fun acc2 p => if acc2.any (fun m => m.id == p.1.id) then acc2 else acc2 ++ [p.1])
      acc)
    model.metabolites
  { model with metabolites := mets, reactions := model.reactions ++ pruned }

/-- Cobrapy Model.add_cons_vars on a list of constraints: registers the whole
batch with the solver interface. -/
def Model.add_cons_vars (model : Model) (cs : List Constraint) : Model :=
  { model with constraints := model.constraints ++ cs }

/-- Python str.lower on the ASCII range: lowercase every character. -/
def pyLower (s : String) : String :=
  String.mk (s.data.map Char.toLower)

/-- Python substring test `needle in haystack` on strings. -/
def strContains (haystack needle : String) : Bool :=
  (List.range (haystack.toList.length + 1)).any
    (fun k => needle.toList.isPrefixOf (haystack.toList.drop k))

/-- The reactions of the model that involve the metabolite with the given id
(the reverse index met_obj.reactions of Cobrapy, restricted to reactions of
the model, which is all of them on every path of this module). -/
def met_rxns (model : Model) (mid : String) : List Reaction :=
  model.reactions.filter (fun r => r.stoich.any (fun p => p.1.id == mid))

/-- An element of the mets_to_dilute argument: Python lets the caller pass
either a metabolite id string or a live Metabolite object. -/
inductive MetArg where
  | str (s : String) : MetArg
  | obj (m : Metabolite) : MetArg
deriving DecidableEq, Repr

/-- isinstance(m, str) on a list element. -/
def MetArg.isStr : MetArg → Bool
  | .str _ => true
  | .obj _ => false

/-- The id an element denotes (only ever used after the all-strings
validation has passed, where it is the string itself). -/
def MetArg.idOf : MetArg → String
  | .str s => s
  | .obj m => m.id

/-- The exceptions add_dilution_constraints can raise. -/
inductive DilError where
  | valueError (msg : String) : DilError
  | keyError (met_id : String) : DilError
deriving DecidableEq, Repr

/-- The ValueError message of the element-type validation, verbatim from the
source (including its missing space). -/
def valueErrorMsg : String :=
  "mets_to_dilute can only contain the IDs of cobra.Metaboliteobjects and not the Metabolite objects themselves"

/-- make_dilution_reaction: a fresh reaction <met id>_dilution that
irreversibly consumes one unit of the metabolite. -/
def make_dilution_reaction (met : Metabolite) : Reaction :=
  { cobra_reaction (met.id ++ "_dilution") with
      name := met.name ++ " Dilution"
      lower_bound := .fin 0
      upper_bound := .inf
      stoich := [(met, -1)] }

/-- make_irrev: constrains the given reaction to the forward direction and
renames it <id>__fwd; returns that updated reaction together with the fresh
reverse copy <id>__rev (negated stoichiometry, same gene-reaction rule, lower
bound the constructor default 0, upper bound copied from the original). -/
def make_irrev (given_rxn : Reaction) : Reaction × Reaction :=
  let fwd := { given_rxn with lower_bound := .fin 0, id := given_rxn.id ++ "__fwd" }
  let rev_copy := { cobra_reaction (given_rxn.id ++ "__rev") with
      stoich := given_rxn.stoich.map (fun p => (p.1, -p.2))
      gene_reaction_rule := given_rxn.gene_reaction_rule
      upper_bound := given_rxn.upper_bound }
  (fwd, rev_copy)

/-- The filter of the rev_copies comprehension: reversible, not a boundary
reaction, and touching at least one of the metabolites to dilute. -/
def split_cond (met_ids : List String) (r : Reaction) : Bool :=
  r.reversibility && !r.boundary && r.stoich.any (fun p => met_ids.contains p.1.id)

/-- One pass over the reaction list: every reaction satisfying split_cond is
replaced in place by its forward half (make_irrev mutates it), and its
reverse copy is collected; other reactions are untouched. -/
def split_reversibles (met_ids : List String) : List Reaction → List Reaction × List Reaction
  | [] => ([], [])
  | r :: rest =>
    let tail := split_reversibles met_ids rest
    if split_cond met_ids r then
      ((make_irrev r).1 :: tail.1, (make_irrev r).2 :: tail.2)
    else
      (r :: tail.1, tail.2)

/-- make_dilution_constraint: looks the metabolite up by id (none embeds the
KeyError), then folds over the reactions involving it, adding
forward + reverse for every reaction whose id does not contain the substring
"dilution" and subtracting dil_factor * (forward - reverse) for every
reaction whose id does contain it; bounds are fixed at 0. -/
def make_dilution_constraint (model : Model) (met_id : String) (dil_factor : ℚ) :
    Option Constraint :=
  match model.getMetById met_id with
  | none => none
  | some met_obj =>
    let expression : LinExpr :=
      (met_rxns model met_obj.id).foldl
        (fun acc r =>
          if strContains r.id "dilution" then
            acc ++ [(FluxVar.fwd r.id, -dil_factor), (FluxVar.rev r.id, dil_factor)]
          else
            acc ++ [(FluxVar.fwd r.id, 1), (FluxVar.rev r.id, 1)])
        []
    some { name := met_id ++ "_dilution_constraint"
           expr := expression
           lb := 0
           ub := 0 }

/-- The list comprehension building dil_rxns: get_by_id on each id in order,
raising KeyError (Except.error) at the first id absent from the model. -/
def lookup_mets (model : Model) : List String → Except DilError (List Metabolite)
  | [] => .ok []
  | i :: rest =>
    match model.getMetById i with
    | none => .error (.keyError i)
    | some met =>
      match lookup_mets model rest with
      | .error e => .error e
      | .ok ms => .ok (met :: ms)

/-- The list comprehension building dil_consts: make_dilution_constraint on
each id in order, raising KeyError at the first failing lookup. -/
def build_constraints (model : Model) (dil_factor : ℚ) :
    List String → Except DilError (List Constraint)
  | [] => .ok []
  | i :: rest =>
    match make_dilution_constraint model i dil_factor with
    | none => .error (.keyError i)
    | some c =>
      match build_constraints model dil_factor rest with
      | .error e => .error e
      | .ok cs => .ok (c :: cs)

/-- The default mets_to_dilute when none was given and dil_factor > 0: the
ids of every metabolite whose name and id do not contain "trna"
case-insensitively. -/
def default_mets (model : Model) : List String :=
  (model.metabolites.filter
    (fun m => !(strContains (pyLower m.name) "trna") && !(strContains (pyLower m.id) "trna"))).map
    (fun m => m.id)

/-- The body of add_dilution_constraints operating on the private copy: the
whole function after line 52 of the source. The verbose and threads
parameters only control printed narration and are dropped. -/
def add_dilution_constraints_core (model : Model) (mets_to_dilute : Option (List MetArg))
    (split_rxns : Bool) (dil_factor : ℚ) : Except DilError Model :=
  let mets : Option (List MetArg) :=
    if 0 < dil_factor ∧ mets_to_dilute = none then
      some ((default_mets model).map MetArg.str)
    else
      mets_to_dilute
  match mets with
  | none => .ok model
  | some l =>
    if 0 < dil_factor ∧ 0 < l.length then
      if l.all MetArg.isStr then
        let met_ids := l.map MetArg.idOf
        match lookup_mets model met_ids with
        | .error e => .error e
        | .ok met_objs =>
          let dil_rxns := met_objs.map make_dilution_reaction
          if split_rxns then
            let halves := split_reversibles met_ids model.reactions
            let model2 : Model := { model with reactions := halves.1 }
            .ok (model2.add_reactions (dil_rxns ++ halves.2))
          else
            let model2 := model.add_reactions dil_rxns
            match build_constraints model2 dil_factor met_ids with
            | .error e => .error e
            | .ok consts => .ok (model2.add_cons_vars consts)
      else
        .error (.valueError valueErrorMsg)
    else
      .ok model

/-- add_dilution_constraints together with the final state of the caller
model: the source copies the given model on line 52 and threads every
mutation through the copy, so the caller model is returned as it came in. -/
def add_dilution_constraints_impl (given_model : Model)
    (mets_to_dilute : Option (List MetArg)) (split_rxns : Bool) (dil_factor : ℚ) :
    Except DilError Model × Model :=
  let model := given_model
  (add_dilution_constraints_core model mets_to_dilute split_rxns dil_factor, given_model)

/-- add_dilution_constraints as the caller sees it: the returned model or the
raised exception. -/
def add_dilution_constraints (given_model : Model) (mets_to_dilute : Option (List MetArg))
    (split_rxns : Bool) (dil_factor : ℚ) : Except DilError Model :=
  (add_dilution_constraints_impl given_model mets_to_dilute split_rxns dil_factor).1

instance {ε α : Type} [DecidableEq ε] [DecidableEq α] : DecidableEq (Except ε α) :=
  fun x y =>
    match x, y with
    | .ok a, .ok b =>
      if h : a = b then isTrue (by rw [h]) else isFalse (by simp [h])
    | .error a, .error b =>
      if h : a = b then isTrue (by rw [h]) else isFalse (by simp [h])
    | .ok _, .error _ => isFalse (by simp)
    | .error _, .ok _ => isFalse (by simp)

/-! Concrete models used to instantiate the theorems below. metA and metB
with the reversible reaction rxnR1 form the scenario model of the spec. -/

def metA : Metabolite := { id := "A", name := "A met" }

def metB : Metabolite := { id := "B", name := "B met" }

def rxnR1 : Reaction :=
  { id := "R1"
    name := "R1"
    lower_bound := .fin (-1000)
    upper_bound := .fin 1000
    stoich := [(metA, -1), (metB, 1)]
    gene_reaction_rule := "g1" }

def model1 : Model :=
  { metabolites := [metA, metB], reactions := [rxnR1], constraints := [] }

/-- The two variable-coefficient pairs the constraint fold appends for one
reaction: minus and plus dil_factor on forward and reverse when the reaction
id contains the substring dilution, plus one on both otherwise. -/
def dilution_pairs (df : ℚ) (r : Reaction) : LinExpr :=
  if strContains r.id "dilution" then
    [(FluxVar.fwd r.id, -df), (FluxVar.rev r.id, df)]
  else
    [(FluxVar.fwd r.id, 1), (FluxVar.rev r.id, 1)]

def metGlc : Metabolite := { id := "glc__D_c0", name := "D-Glucose" }

def metTrnaLeu : Metabolite := { id := "tRNA-Leu_c0", name := "tRNA-Leu_c0" }

def model9 : Model :=
  { metabolites := [metGlc, metTrnaLeu], reactions := [], constraints := [] }

def metX : Metabolite := { id := "X", name := "X met" }

/-- A pre-existing model reaction whose id happens to contain the substring
dilution; it produces X and is not a dilution reaction of any metabolite. -/
def rxnPre : Reaction :=
  { id := "Rdilution"
    name := "pre-existing"
    lower_bound := .fin 0
    upper_bound := .fin 1000
    stoich := [(metX, 1)]
    gene_reaction_rule := "" }

def cexModel : Model :=
  { metabolites := [metX], reactions := [rxnPre], constraints := [] }

/-- Modelled from the words of claim C1 at the counterexample input: the
expression the claim prescribes for the constraint of X in cexModel with
dilution factor 2, namely forward plus reverse of every reaction touching X
other than the dilution reaction of X (here the single reaction Rdilution),
minus 2 times (forward minus reverse) of the dilution reaction X_dilution. -/
def claimedExprX : LinExpr :=
  [(FluxVar.fwd "Rdilution", 1), (FluxVar.rev "Rdilution", 1),
   (FluxVar.fwd "X_dilution", -2), (FluxVar.rev "X_dilution", 2)]

/-! Theorems for the frozen claims. -/

/-- Claim C6: with dil_factor less than or equal to 0, or with mets_to_dilute
the empty list, add_dilution_constraints is a no-op that does not raise: it
returns the private copy structurally equal to the given model, with the same
reaction and metabolite counts and bounds and with no reactions and no
constraints added. -/
theorem noop_returns_copy (M : Model) (mets : Option (List MetArg))
    (split_rxns : Bool) (df : ℚ) (h : df ≤ 0 ∨ mets = some []) :
    add_dilution_constraints M mets split_rxns df = .ok M := by
  rcases h with h | h
  · have h1 : ¬ (0 < df) := not_lt.mpr h
    cases mets with
    | none =>
      simp [add_dilution_constraints, add_dilution_constraints_impl,
        add_dilution_constraints_core, h1]
    | some l =>
      simp [add_dilution_constraints, add_dilution_constraints_impl,
        add_dilution_constraints_core, h1]
  · subst h
    simp [add_dilution_constraints, add_dilution_constraints_impl,
      add_dilution_constraints_core]

/-- Witness for claim C6 at a concrete input: diluting the empty list with a
positive dilution factor returns the unchanged copy of model1. -/
theorem noop_returns_copy_witness :
    add_dilution_constraints model1 (some []) false 5 = .ok model1 :=
  noop_returns_copy model1 (some []) false 5 (Or.inr rfl)

/-- Claim C10: the element-type validation of mets_to_dilute only runs inside
the active branch: when dil_factor is not positive or the list is empty, a
list holding non-string entries (live Metabolite objects) raises nothing and
the unchanged copy is returned. -/
theorem inactive_branch_skips_validation (M : Model) (l : List MetArg)
    (split_rxns : Bool) (df : ℚ) (h : df ≤ 0 ∨ l = [])
    (hbad : ∃ m ∈ l, MetArg.isStr m = false) :
    add_dilution_constraints M (some l) split_rxns df = .ok M := by
  rcases h with h | h
  · exact noop_returns_copy M (some l) split_rxns df (Or.inl h)
  · rcases hbad with ⟨m, hm, _⟩
    subst h
    cases hm

/-- Witness for claim C10: passing the Metabolite object metA itself with the
default dilution factor 0 does not raise and returns the unchanged copy. -/
theorem inactive_branch_skips_validation_witness :
    (0 : ℚ) ≤ 0 ∧
      add_dilution_constraints model1 (some [MetArg.obj metA]) false 0 = .ok model1 :=
  ⟨le_refl 0,
    inactive_branch_skips_validation model1 [MetArg.obj metA] false 0 (Or.inl (le_refl 0))
      ⟨MetArg.obj metA, by decide, by decide⟩⟩

/-- Claim C2: for every combination of arguments, the caller model is never
mutated: after the call its reaction count, metabolite count, reaction ids
and reaction bounds are as before; all work happens on the private copy that
becomes the returned value. -/
theorem original_model_unchanged (M : Model) (mets : Option (List MetArg))
    (split_rxns : Bool) (df : ℚ) :
    (add_dilution_constraints_impl M mets split_rxns df).2.reactions.length
        = M.reactions.length ∧
      (add_dilution_constraints_impl M mets split_rxns df).2.metabolites.length
        = M.metabolites.length ∧
      (add_dilution_constraints_impl M mets split_rxns df).2.reactions.map Reaction.id
        = M.reactions.map Reaction.id ∧
      (add_dilution_constraints_impl M mets split_rxns df).2.reactions.map
          (fun r => (r.lower_bound, r.upper_bound))
        = M.reactions.map (fun r => (r.lower_bound, r.upper_bound)) :=
  ⟨rfl, rfl, rfl, rfl⟩

/-- Claim C7: a positive dilution factor and a non-empty mets_to_dilute list
holding any non-string entry raise the ValueError of the validation, before
any reaction is built or added, and the caller model keeps its reactions and
constraints. -/
theorem nonstring_entries_raise_valueerror (M : Model) (l : List MetArg)
    (split_rxns : Bool) (df : ℚ) (hdf : 0 < df) (hlen : 0 < l.length)
    (hbad : ∃ m ∈ l, MetArg.isStr m = false) :
    add_dilution_constraints M (some l) split_rxns df
        = .error (.valueError valueErrorMsg) ∧
      (add_dilution_constraints_impl M (some l) split_rxns df).2 = M := by
  constructor
  · have hall : l.all MetArg.isStr = false := by
      rcases hbad with ⟨m, hm, hmf⟩
      rcases Bool.eq_false_or_eq_true (l.all MetArg.isStr) with ht | hf
      · have := List.all_eq_true.mp ht m hm
        rw [hmf] at this
        cases this
      · exact hf
    simp [add_dilution_constraints, add_dilution_constraints_impl,
      add_dilution_constraints_core, hdf, hlen, hall]
  · rfl

/-- Witness for claim C7: diluting with the list [metA object] and dilution
factor 2 raises the ValueError and leaves model1 as it was. -/
theorem nonstring_entries_raise_valueerror_witness :
    (0 : ℚ) < 2 ∧ 0 < [MetArg.obj metA].length ∧
      add_dilution_constraints model1 (some [MetArg.obj metA]) false 2
          = .error (.valueError valueErrorMsg) ∧
      (add_dilution_constraints_impl model1 (some [MetArg.obj metA]) false 2).2 = model1 :=
  ⟨by decide, by decide,
    nonstring_entries_raise_valueerror model1 [MetArg.obj metA] false 2 (by decide) (by decide)
      ⟨MetArg.obj metA, by decide, by decide⟩⟩

lemma idOf_str (s : String) : MetArg.idOf (MetArg.str s) = s := rfl

lemma idOf_comp_str : MetArg.idOf ∘ MetArg.str = id := rfl

lemma isStr_str (s : String) : MetArg.isStr (MetArg.str s) = true := rfl

/-- lookup_mets raises the KeyError of some listed id that is absent from the
model whenever at least one listed id is absent. -/
lemma lookup_mets_error (model : Model) (ids : List String)
    (hmiss : ∃ i ∈ ids, model.getMetById i = none) :
    ∃ s ∈ ids, model.getMetById s = none ∧
      lookup_mets model ids = .error (.keyError s) := by
  induction ids with
  | nil => simp at hmiss
  | cons i rest ih =>
    cases hid : model.getMetById i with
    | none =>
      exact ⟨i, List.mem_cons_self i rest, hid, by simp [lookup_mets, hid]⟩
    | some met =>
      have hrest : ∃ j ∈ rest, model.getMetById j = none := by
        rcases hmiss with ⟨j, hj, hjn⟩
        rcases List.mem_cons.mp hj with rfl | hjr
        · rw [hid] at hjn
          cases hjn
        · exact ⟨j, hjr, hjn⟩
      rcases ih hrest with ⟨s, hs, hsn, heq⟩
      exact ⟨s, List.mem_cons_of_mem _ hs, hsn, by simp [lookup_mets, hid, heq]⟩

/-- Claim C8: with a positive dilution factor and a non-empty list of id
strings among which one names no metabolite of the model, the call fails with
the lookup KeyError of some missing id, which propagates: no model is
returned and no id is silently skipped. -/
theorem missing_met_id_raises_keyerror (M : Model) (ids : List String)
    (split_rxns : Bool) (df : ℚ) (hdf : 0 < df) (hlen : 0 < ids.length)
    (hmiss : ∃ i ∈ ids, M.getMetById i = none) :
    ∃ s ∈ ids, M.getMetById s = none ∧
      add_dilution_constraints M (some (ids.map MetArg.str)) split_rxns df
        = .error (.keyError s) := by
  rcases lookup_mets_error M ids hmiss with ⟨s, hs, hsn, heq⟩
  refine ⟨s, hs, hsn, ?_⟩
  simp [add_dilution_constraints, add_dilution_constraints_impl,
    add_dilution_constraints_core, hdf, hlen, List.map_map, idOf_comp_str,
    isStr_str, heq]

/-- Witness for claim C8: diluting the absent id Z in model1 with dilution
factor 2 raises KeyError Z. -/
theorem missing_met_id_raises_keyerror_witness :
    (0 : ℚ) < 2 ∧ 0 < ["Z"].length ∧
      ∃ s ∈ ["Z"], model1.getMetById s = none ∧
        add_dilution_constraints model1 (some (["Z"].map MetArg.str)) false 2
          = .error (.keyError s) :=
  ⟨by decide, by decide,
    missing_met_id_raises_keyerror model1 ["Z"] false 2 (by decide) (by decide)
      ⟨"Z", by decide, by decide⟩⟩

/-- A successful get_by_id returns a metabolite carrying the requested id. -/
lemma getMetById_id {model : Model} {i : String} {m : Metabolite}
    (h : model.getMetById i = some m) : m.id = i := by
  have := List.find?_some h
  exact eq_of_beq this

/-- lookup_mets succeeds and relates ids to metabolites pointwise when every
listed id is present in the model. -/
lemma lookup_mets_ok (model : Model) (ids : List String)
    (h : ∀ i ∈ ids, (model.getMetById i).isSome) :
    ∃ ms, lookup_mets model ids = .ok ms ∧
      List.Forall₂ (fun i m => model.getMetById i = some m) ids ms := by
  induction ids with
  | nil => exact ⟨[], rfl, List.Forall₂.nil⟩
  | cons i rest ih =>
    have hi := h i (List.mem_cons_self i rest)
    rcases Option.isSome_iff_exists.mp hi with ⟨met, hmet⟩
    rcases ih (fun j hj => h j (List.mem_cons_of_mem _ hj)) with ⟨ms, hok, hrel⟩
    exact ⟨met :: ms, by simp [lookup_mets, hmet, hok], List.Forall₂.cons hmet hrel⟩

/-- Each left element of a Forall₂ pairing has a related right element. -/
lemma forall₂_mem_left {α β : Type} {R : α → β → Prop} {l1 : List α} {l2 : List β}
    (h : List.Forall₂ R l1 l2) : ∀ a ∈ l1, ∃ b ∈ l2, R a b := by
  induction h with
  | nil => intro a ha; cases ha
  | cons hr _ ih =>
    intro a ha
    rcases List.mem_cons.mp ha with rfl | ha2
    · exact ⟨_, List.mem_cons_self _ _, hr⟩
    · rcases ih a ha2 with ⟨b, hb, hab⟩
      exact ⟨b, List.mem_cons_of_mem _ hb, hab⟩

/-- Each right element of a Forall₂ pairing has a related left element. -/
lemma forall₂_mem_right {α β : Type} {R : α → β → Prop} {l1 : List α} {l2 : List β}
    (h : List.Forall₂ R l1 l2) : ∀ b ∈ l2, ∃ a ∈ l1, R a b := by
  induction h with
  | nil => intro b hb; cases hb
  | cons hr _ ih =>
    intro b hb
    rcases List.mem_cons.mp hb with rfl | hb2
    · exact ⟨_, List.mem_cons_self _ _, hr⟩
    · rcases ih b hb2 with ⟨a, ha, hab⟩
      exact ⟨a, List.mem_cons_of_mem _ ha, hab⟩

/-- When every added reaction has an id fresh for the model, the existing
filter of add_reactions prunes nothing and the reaction list is the old one
with the batch appended. -/
lemma add_reactions_fresh (model : Model) (rxns : List Reaction)
    (h : ∀ r ∈ rxns, ∀ r0 ∈ model.reactions, r0.id ≠ r.id) :
    (model.add_reactions rxns).reactions = model.reactions ++ rxns := by
  have hfilter : rxns.filter (fun r => !(model.reactions.any (fun r0 => r0.id == r.id))) = rxns := by
    apply List.filter_eq_self.mpr
    intro r hr
    have : model.reactions.any (fun r0 => r0.id == r.id) = false := by
      apply List.any_eq_false.mpr
      intro r0 hr0
      simp only [Bool.not_eq_true]
      exact beq_eq_false_iff_ne.mpr (h r hr r0 hr0)
    simp [this]
  simp [Model.add_reactions, hfilter]

/-- The metabolite-collecting inner fold of add_reactions only appends. -/
lemma stoich_fold_extend (ps : List (Metabolite × ℚ)) (acc : List Metabolite) :
    ∃ t, ps.foldl
        (fun acc2 p => if acc2.any (fun m => m.id == p.1.id) then acc2 else acc2 ++ [p.1])
        acc = acc ++ t := by
  induction ps generalizing acc with
  | nil => exact ⟨[], by simp⟩
  | cons p ps ih =>
    simp only [List.foldl_cons]
    by_cases h : acc.any (fun m => m.id == p.1.id) = true
    · rw [if_pos h]
      exact ih acc
    · rw [if_neg h]
      rcases ih (acc ++ [p.1]) with ⟨t, ht⟩
      exact ⟨p.1 :: t, by rw [ht, List.append_assoc]; rfl⟩

/-- The metabolite-collecting outer fold of add_reactions only appends. -/
lemma met_fold_extend (rs : List Reaction) (acc : List Metabolite) :
    ∃ t, rs.foldl
        (fun acc r => r.stoich.foldl
          (fun acc2 p => if acc2.any (fun m => m.id == p.1.id) then acc2 else acc2 ++ [p.1])
          acc)
        acc = acc ++ t := by
  induction rs generalizing acc with
  | nil => exact ⟨[], by simp⟩
  | cons r rs ih =>
    simp only [List.foldl_cons]
    rcases stoich_fold_extend r.stoich acc with ⟨t1, ht1⟩
    rw [ht1]
    rcases ih (acc ++ t1) with ⟨t2, ht2⟩
    exact ⟨t1 ++ t2, by rw [ht2, List.append_assoc]⟩

/-- add_reactions only appends to the metabolite list. -/
lemma add_reactions_mets_extend (model : Model) (rxns : List Reaction) :
    ∃ t, (model.add_reactions rxns).metabolites = model.metabolites ++ t := by
  simpa [Model.add_reactions] using
    met_fold_extend
      (rxns.filter (fun r => !(model.reactions.any (fun r0 => r0.id == r.id))))
      model.metabolites

/-- A metabolite found in the model is still found after add_reactions. -/
lemma getMetById_add_reactions (model : Model) (rxns : List Reaction) {i : String}
    {m : Metabolite} (h : model.getMetById i = some m) :
    (model.add_reactions rxns).getMetById i = some m := by
  rcases add_reactions_mets_extend model rxns with ⟨t, ht⟩
  unfold Model.getMetById at h ⊢
  rw [ht, List.find?_append, h]
  rfl

/-- Name and bounds of a successfully built dilution constraint. -/
lemma make_dilution_constraint_shape {model : Model} {i : String} {df : ℚ}
    {c : Constraint} (h : make_dilution_constraint model i df = some c) :
    c.name = i ++ "_dilution_constraint" ∧ c.lb = 0 ∧ c.ub = 0 := by
  unfold make_dilution_constraint at h
  cases hm : model.getMetById i with
  | none =>
    rw [hm] at h
    cases h
  | some met =>
    simp only [hm, Option.some.injEq] at h
    subst h
    exact ⟨rfl, rfl, rfl⟩

/-- build_constraints succeeds pointwise when every id is present. -/
lemma build_constraints_ok (model : Model) (df : ℚ) (ids : List String)
    (h : ∀ i ∈ ids, (model.getMetById i).isSome) :
    ∃ cs, build_constraints model df ids = .ok cs ∧
      List.Forall₂ (fun i c => make_dilution_constraint model i df = some c) ids cs := by
  induction ids with
  | nil => exact ⟨[], rfl, List.Forall₂.nil⟩
  | cons i rest ih =>
    rcases Option.isSome_iff_exists.mp (h i (List.mem_cons_self i rest)) with ⟨met, hmet⟩
    have hmk : ∃ c, make_dilution_constraint model i df = some c := by
      unfold make_dilution_constraint
      rw [hmet]
      exact ⟨_, rfl⟩
    rcases hmk with ⟨c, hc⟩
    rcases ih (fun j hj => h j (List.mem_cons_of_mem _ hj)) with ⟨cs, hok, hrel⟩
    exact ⟨c :: cs, by simp [build_constraints, hc, hok], List.Forall₂.cons hc hrel⟩

/-- Closed form of the active non-split branch: dilution reactions are added
first, then the constraint batch is registered. -/
lemma nonsplit_run (M : Model) (ids : List String) (df : ℚ)
    (hdf : 0 < df) (hlen : 0 < ids.length) {ms : List Metabolite}
    (hms : lookup_mets M ids = .ok ms) {cs : List Constraint}
    (hcs : build_constraints (M.add_reactions (ms.map make_dilution_reaction)) df ids
      = .ok cs) :
    add_dilution_constraints M (some (ids.map MetArg.str)) false df
      = .ok ((M.add_reactions (ms.map make_dilution_reaction)).add_cons_vars cs) := by
  simp [add_dilution_constraints, add_dilution_constraints_impl,
    add_dilution_constraints_core, hdf, hlen, List.map_map, idOf_comp_str,
    isStr_str, hms, hcs]

/-- Claim C3: for a non-empty list of k metabolite ids present in the model,
with split_reactions false and a positive dilution factor (and the synthetic
dilution ids fresh for the model), the returned model has exactly k more
reactions, one dilution reaction per listed metabolite with bounds [0, inf)
and stoichiometry minus one on its metabolite, and exactly k new equality
constraints registered in one batch. -/
theorem dilution_reactions_and_constraints_added (M : Model) (ids : List String)
    (df : ℚ) (hdf : 0 < df) (hne : ids ≠ [])
    (hpres : ∀ i ∈ ids, (M.getMetById i).isSome)
    (hfresh : ∀ r ∈ M.reactions, ∀ i ∈ ids, r.id ≠ i ++ "_dilution") :
    ∃ N, add_dilution_constraints M (some (ids.map MetArg.str)) false df = .ok N ∧
      N.reactions.length = M.reactions.length + ids.length ∧
      N.constraints.length = M.constraints.length + ids.length ∧
      (∀ i ∈ ids, ∃ met, M.getMetById i = some met ∧
        ∃ r ∈ N.reactions, r.id = i ++ "_dilution" ∧ r.lower_bound = Flt.fin 0 ∧
          r.upper_bound = Flt.inf ∧ r.stoich = [(met, -1)]) ∧
      (∀ c ∈ N.constraints.drop M.constraints.length, c.lb = 0 ∧ c.ub = 0) := by
  have hlen : 0 < ids.length := List.length_pos.mpr hne
  rcases lookup_mets_ok M ids hpres with ⟨ms, hms, hrel⟩
  have hpres2 : ∀ i ∈ ids,
      ((M.add_reactions (ms.map make_dilution_reaction)).getMetById i).isSome := by
    intro i hi
    rcases Option.isSome_iff_exists.mp (hpres i hi) with ⟨met, hmet⟩
    rw [getMetById_add_reactions M _ hmet]
    rfl
  rcases build_constraints_ok (M.add_reactions (ms.map make_dilution_reaction)) df ids
    hpres2 with ⟨cs, hcs, hcrel⟩
  have hreact : (M.add_reactions (ms.map make_dilution_reaction)).reactions
      = M.reactions ++ ms.map make_dilution_reaction := by
    apply add_reactions_fresh
    intro r hr r0 hr0
    rcases List.mem_map.mp hr with ⟨m, hm, rfl⟩
    rcases forall₂_mem_right hrel m hm with ⟨i, hi, hmi⟩
    have hid : m.id = i := getMetById_id hmi
    simpa [make_dilution_reaction, cobra_reaction, hid] using hfresh r0 hr0 i hi
  have hcons : (M.add_reactions (ms.map make_dilution_reaction)).constraints
      = M.constraints := by
    simp [Model.add_reactions]
  refine ⟨(M.add_reactions (ms.map make_dilution_reaction)).add_cons_vars cs,
    nonsplit_run M ids df hdf hlen hms hcs, ?_, ?_, ?_, ?_⟩
  · simp only [Model.add_cons_vars]
    rw [hreact]
    simp [hrel.length_eq]
  · simp only [Model.add_cons_vars]
    rw [hcons]
    simp [hcrel.length_eq]
  · intro i hi
    rcases forall₂_mem_left hrel i hi with ⟨m, hm, hmi⟩
    have hid : m.id = i := getMetById_id hmi
    refine ⟨m, hmi, make_dilution_reaction m, ?_, ?_, rfl, rfl, rfl⟩
    · simp only [Model.add_cons_vars]
      rw [hreact]
      exact List.mem_append_right _ (List.mem_map.mpr ⟨m, hm, rfl⟩)
    · simp [make_dilution_reaction, cobra_reaction, hid]
  · intro c hc
    simp only [Model.add_cons_vars] at hc
    rw [hcons, List.drop_left] at hc
    rcases forall₂_mem_right hcrel c hc with ⟨i, _, hmk⟩
    exact (make_dilution_constraint_shape hmk).2

/-- Witness for claim C3: diluting metabolite A of model1 with dilution
factor 2 and split_reactions false. -/
theorem dilution_reactions_and_constraints_added_witness :
    (0 : ℚ) < 2 ∧ (["A"] : List String) ≠ [] ∧
      (∃ N, add_dilution_constraints model1 (some (["A"].map MetArg.str)) false 2
          = .ok N ∧
        N.reactions.length = model1.reactions.length + ["A"].length ∧
        N.constraints.length = model1.constraints.length + ["A"].length ∧
        (∀ i ∈ ["A"], ∃ met, model1.getMetById i = some met ∧
          ∃ r ∈ N.reactions, r.id = i ++ "_dilution" ∧ r.lower_bound = Flt.fin 0 ∧
            r.upper_bound = Flt.inf ∧ r.stoich = [(met, -1)]) ∧
        (∀ c ∈ N.constraints.drop model1.constraints.length, c.lb = 0 ∧ c.ub = 0)) :=
  ⟨by decide, by decide,
    dilution_reactions_and_constraints_added model1 ["A"] 2 (by decide) (by decide)
      (by decide) (by decide)⟩

/-- Mapping the two sides of a Forall₂ pairing with pointwise-equal functions
gives the same list. -/
lemma forall₂_map_eq {α β γ : Type} {R : α → β → Prop} {f : β → γ} {g : α → γ}
    {l1 : List α} {l2 : List β} (h : List.Forall₂ R l1 l2)
    (hf : ∀ a b, R a b → f b = g a) : l2.map f = l1.map g := by
  induction h with
  | nil => rfl
  | cons hr _ ih => simp [ih, hf _ _ hr]

/-- With no list given and a positive dilution factor, an empty default
selection short-circuits to the unchanged copy. -/
lemma default_empty_noop (M : Model) (split_rxns : Bool) (df : ℚ) (hdf : 0 < df)
    (hempty : default_mets M = []) :
    add_dilution_constraints M none split_rxns df = .ok M := by
  simp [add_dilution_constraints, add_dilution_constraints_impl,
    add_dilution_constraints_core, hdf, hempty]

/-- Closed form of the active non-split branch when the default metabolite
selection is used. -/
lemma nonsplit_run_default (M : Model) (df : ℚ) (hdf : 0 < df)
    (hlen : 0 < (default_mets M).length) {ms : List Metabolite}
    (hms : lookup_mets M (default_mets M) = .ok ms) {cs : List Constraint}
    (hcs : build_constraints (M.add_reactions (ms.map make_dilution_reaction)) df
      (default_mets M) = .ok cs) :
    add_dilution_constraints M none false df
      = .ok ((M.add_reactions (ms.map make_dilution_reaction)).add_cons_vars cs) := by
  simp [add_dilution_constraints, add_dilution_constraints_impl,
    add_dilution_constraints_core, hdf, hlen, List.map_map, idOf_comp_str,
    isStr_str, hms, hcs]

/-- Claim C9: when mets_to_dilute is omitted and dil_factor > 0, the diluted
metabolites are exactly those of the model whose name and id both lack the
substring trna case-insensitively: the returned reaction ids are the old ones
followed by one <id>_dilution per metabolite passing that filter. -/
theorem default_selection_excludes_trna (M : Model) (df : ℚ) (hdf : 0 < df)
    (hfresh : ∀ r ∈ M.reactions, ∀ m ∈ M.metabolites, r.id ≠ m.id ++ "_dilution") :
    ∃ N, add_dilution_constraints M none false df = .ok N ∧
      N.reactions.map Reaction.id
        = M.reactions.map Reaction.id ++
          (M.metabolites.filter (fun m =>
            !(strContains (pyLower m.name) "trna") && !(strContains (pyLower m.id) "trna"))).map
            (fun m => m.id ++ "_dilution") := by
  by_cases hempty : default_mets M = []
  · refine ⟨M, default_empty_noop M false df hdf hempty, ?_⟩
    have : (M.metabolites.filter (fun m =>
        !(strContains (pyLower m.name) "trna") && !(strContains (pyLower m.id) "trna"))) = [] := by
      have := hempty
      unfold default_mets at this
      exact List.map_eq_nil_iff.mp this
    rw [this]
    simp
  · have hlen : 0 < (default_mets M).length :=
      List.length_pos.mpr hempty
    have hpres : ∀ i ∈ default_mets M, (M.getMetById i).isSome := by
      intro i hi
      unfold default_mets at hi
      rcases List.mem_map.mp hi with ⟨m, hm, rfl⟩
      have hmem : m ∈ M.metabolites := List.mem_of_mem_filter hm
      apply Option.isSome_iff_exists.mpr
      have : (M.metabolites.find? (fun m2 => m2.id == m.id)).isSome := by
        apply List.find?_isSome.mpr
        exact ⟨m, hmem, by simp⟩
      rcases Option.isSome_iff_exists.mp this with ⟨m2, hm2⟩
      exact ⟨m2, hm2⟩
    rcases lookup_mets_ok M (default_mets M) hpres with ⟨ms, hms, hrel⟩
    have hpres2 : ∀ i ∈ default_mets M,
        ((M.add_reactions (ms.map make_dilution_reaction)).getMetById i).isSome := by
      intro i hi
      rcases Option.isSome_iff_exists.mp (hpres i hi) with ⟨met, hmet⟩
      rw [getMetById_add_reactions M _ hmet]
      rfl
    rcases build_constraints_ok (M.add_reactions (ms.map make_dilution_reaction)) df
      (default_mets M) hpres2 with ⟨cs, hcs, hcrel⟩
    have hfresh2 : ∀ i ∈ default_mets M, ∀ r0 ∈ M.reactions, r0.id ≠ i ++ "_dilution" := by
      intro i hi r0 hr0
      unfold default_mets at hi
      rcases List.mem_map.mp hi with ⟨m, hm, rfl⟩
      exact hfresh r0 hr0 m (List.mem_of_mem_filter hm)
    have hreact : (M.add_reactions (ms.map make_dilution_reaction)).reactions
        = M.reactions ++ ms.map make_dilution_reaction := by
      apply add_reactions_fresh
      intro r hr r0 hr0
      rcases List.mem_map.mp hr with ⟨m, hm, rfl⟩
      rcases forall₂_mem_right hrel m hm with ⟨i, hi, hmi⟩
      have hid : m.id = i := getMetById_id hmi
      simpa [make_dilution_reaction, cobra_reaction, hid] using hfresh2 i hi r0 hr0
    refine ⟨(M.add_reactions (ms.map make_dilution_reaction)).add_cons_vars cs,
      nonsplit_run_default M df hdf hlen hms hcs, ?_⟩
    have hmapids : ms.map (fun m => m.id ++ "_dilution")
        = (default_mets M).map (fun i => i ++ "_dilution") := by
      apply forall₂_map_eq hrel
      intro i m hmi
      rw [getMetById_id hmi]
    simp only [Model.add_cons_vars]
    rw [hreact]
    rw [List.map_append, List.map_map]
    have : (Reaction.id ∘ make_dilution_reaction) = fun m => m.id ++ "_dilution" := rfl
    rw [this, hmapids]
    unfold default_mets
    rw [List.map_map]
    rfl

/-- Witness for claim C9: on a model holding glc__D_c0 and tRNA-Leu_c0, the
default selection dilutes glc__D_c0 only. -/
theorem default_selection_excludes_trna_witness :
    (0 : ℚ) < 1 ∧ default_mets model9 = ["glc__D_c0"] ∧
      (∃ N, add_dilution_constraints model9 none false 1 = .ok N ∧
        N.reactions.map Reaction.id
          = model9.reactions.map Reaction.id ++
            (model9.metabolites.filter (fun m =>
              !(strContains (pyLower m.name) "trna") &&
                !(strContains (pyLower m.id) "trna"))).map
              (fun m => m.id ++ "_dilution")) :=
  ⟨by decide, by decide,
    default_selection_excludes_trna model9 1 (by decide) (by decide)⟩

/-- Two appended strings whose suffixes end in different characters are
different, whatever the prefixes: rules out collisions between the three
synthetic id families _dilution, __fwd and __rev. -/
lemma append_ne_of_last (c d : Char) {a b s t : String}
    (hs : s.data.getLast? = some c) (ht : t.data.getLast? = some d)
    (hcd : c ≠ d) : a ++ s ≠ b ++ t := by
  intro h
  have hdata : (a ++ s).data = (b ++ t).data := by rw [h]
  rw [String.data_append, String.data_append] at hdata
  have h1 : (a.data ++ s.data).getLast? = some c := by
    rw [List.getLast?_append, hs]
    rfl
  have h2 : (b.data ++ t.data).getLast? = some d := by
    rw [List.getLast?_append, ht]
    rfl
  rw [hdata, h2] at h1
  exact hcd (Option.some.inj h1).symm

/-- The in-place half of the split pass: every reaction satisfying
split_cond is replaced by its __fwd version, the others stay. -/
lemma split_fst (met_ids : List String) (rs : List Reaction) :
    (split_reversibles met_ids rs).1
      = rs.map (fun r => if split_cond met_ids r then (make_irrev r).1 else r) := by
  induction rs with
  | nil => rfl
  | cons r rest ih =>
    by_cases h : split_cond met_ids r = true
    · simp [split_reversibles, h, ih]
    · simp [split_reversibles, h, ih]

/-- The collected half of the split pass: one __rev copy per reaction
satisfying split_cond, in order. -/
lemma split_snd (met_ids : List String) (rs : List Reaction) :
    (split_reversibles met_ids rs).2
      = (rs.filter (split_cond met_ids)).map (fun r => (make_irrev r).2) := by
  induction rs with
  | nil => rfl
  | cons r rest ih =>
    by_cases h : split_cond met_ids r = true
    · simp [split_reversibles, h, ih]
    · simp [split_reversibles, h, ih]

/-- Closed form of the active split branch: reversible reactions touching the
diluted metabolites are split in place, then the dilution reactions and the
reverse copies are added in one batch and no constraint is registered. -/
lemma split_run (M : Model) (ids : List String) (df : ℚ)
    (hdf : 0 < df) (hlen : 0 < ids.length) {ms : List Metabolite}
    (hms : lookup_mets M ids = .ok ms) :
    add_dilution_constraints M (some (ids.map MetArg.str)) true df
      = .ok (Model.add_reactions
          { M with reactions := (split_reversibles ids M.reactions).1 }
          (ms.map make_dilution_reaction ++ (split_reversibles ids M.reactions).2)) := by
  simp [add_dilution_constraints, add_dilution_constraints_impl,
    add_dilution_constraints_core, hdf, hlen, List.map_map, idOf_comp_str,
    isStr_str, hms]

/-- Every reaction of the split batch has an id fresh for the renamed
reaction list, from the caller-level freshness assumptions plus the
suffix-disagreement of the synthetic id families. -/
lemma split_batch_fresh (M : Model) (ids : List String) {ms : List Metabolite}
    (hrel : List.Forall₂ (fun i m => M.getMetById i = some m) ids ms)
    (hfresh1 : ∀ r ∈ M.reactions, ∀ i ∈ ids, r.id ≠ i ++ "_dilution")
    (hfresh2 : ∀ r0 ∈ M.reactions, ∀ r ∈ M.reactions, r0.id ≠ r.id ++ "__rev") :
    ∀ d ∈ ms.map make_dilution_reaction ++ (split_reversibles ids M.reactions).2,
      ∀ r0 ∈ (split_reversibles ids M.reactions).1, r0.id ≠ d.id := by
  intro d hd r0 hr0
  rw [split_fst] at hr0
  rcases List.mem_map.mp hr0 with ⟨r1, hr1, rfl⟩
  rcases List.mem_append.mp hd with hdil | hrev
  · rcases List.mem_map.mp hdil with ⟨m, hm, rfl⟩
    rcases forall₂_mem_right hrel m hm with ⟨i, hi, hmi⟩
    have hdid : (make_dilution_reaction m).id = i ++ "_dilution" := by
      simp [make_dilution_reaction, cobra_reaction, getMetById_id hmi]
    rw [hdid]
    by_cases hc : split_cond ids r1 = true
    · rw [if_pos hc]
      exact append_ne_of_last 'd' 'n' (by decide) (by decide) (by decide)
    · rw [if_neg hc]
      exact hfresh1 r1 hr1 i hi
  · rw [split_snd] at hrev
    rcases List.mem_map.mp hrev with ⟨r2, hr2, rfl⟩
    have hr2m : r2 ∈ M.reactions := List.mem_of_mem_filter hr2
    have hrid : (make_irrev r2).2.id = r2.id ++ "__rev" := rfl
    rw [hrid]
    by_cases hc : split_cond ids r1 = true
    · rw [if_pos hc]
      exact append_ne_of_last 'd' 'v' (by decide) (by decide) (by decide)
    · rw [if_neg hc]
      exact hfresh2 r1 hr1 r2 hr2m

/-- With fresh synthetic ids nothing is pruned: the reactions after the split
branch are the renamed list followed by the whole batch. -/
lemma split_reactions_closed (M : Model) (ids : List String) {ms : List Metabolite}
    (hrel : List.Forall₂ (fun i m => M.getMetById i = some m) ids ms)
    (hfresh1 : ∀ r ∈ M.reactions, ∀ i ∈ ids, r.id ≠ i ++ "_dilution")
    (hfresh2 : ∀ r0 ∈ M.reactions, ∀ r ∈ M.reactions, r0.id ≠ r.id ++ "__rev") :
    (Model.add_reactions { M with reactions := (split_reversibles ids M.reactions).1 }
        (ms.map make_dilution_reaction ++ (split_reversibles ids M.reactions).2)).reactions
      = (split_reversibles ids M.reactions).1
          ++ (ms.map make_dilution_reaction ++ (split_reversibles ids M.reactions).2) := by
  apply add_reactions_fresh
  exact split_batch_fresh M ids hrel hfresh1 hfresh2

/-- Claim C4: in split mode with a positive dilution factor and a non-empty
list of present metabolite ids (synthetic ids fresh), the returned model has
exactly reactions(M) + k + r reactions, r being the number of reversible
non-boundary reactions touching a diluted metabolite, and its constraint set
is unchanged: no dilution constraint is registered in this mode. -/
theorem split_mode_reaction_growth (M : Model) (ids : List String) (df : ℚ)
    (hdf : 0 < df) (hne : ids ≠ [])
    (hpres : ∀ i ∈ ids, (M.getMetById i).isSome)
    (hfresh1 : ∀ r ∈ M.reactions, ∀ i ∈ ids, r.id ≠ i ++ "_dilution")
    (hfresh2 : ∀ r0 ∈ M.reactions, ∀ r ∈ M.reactions, r0.id ≠ r.id ++ "__rev") :
    ∃ N, add_dilution_constraints M (some (ids.map MetArg.str)) true df = .ok N ∧
      N.reactions.length
        = M.reactions.length + ids.length
            + (M.reactions.filter (split_cond ids)).length ∧
      N.constraints = M.constraints := by
  have hlen : 0 < ids.length := List.length_pos.mpr hne
  rcases lookup_mets_ok M ids hpres with ⟨ms, hms, hrel⟩
  refine ⟨_, split_run M ids df hdf hlen hms, ?_, ?_⟩
  · rw [split_reactions_closed M ids hrel hfresh1 hfresh2]
    have l1 : (split_reversibles ids M.reactions).1.length = M.reactions.length := by
      rw [split_fst]
      simp
    have l2 : (split_reversibles ids M.reactions).2.length
        = (M.reactions.filter (split_cond ids)).length := by
      rw [split_snd]
      simp
    have l3 : (ms.map make_dilution_reaction).length = ids.length := by
      simp [← hrel.length_eq]
    simp only [List.length_append, l1, l2, l3]
    omega
  · simp [Model.add_reactions]

/-- Witness for claim C4: splitting model1 while diluting A adds the dilution
reaction for A and one reverse copy of the reversible reaction R1. -/
theorem split_mode_reaction_growth_witness :
    (0 : ℚ) < 2 ∧ (["A"] : List String) ≠ [] ∧
      (∃ N, add_dilution_constraints model1 (some (["A"].map MetArg.str)) true 2
          = .ok N ∧
        N.reactions.length
          = model1.reactions.length + ["A"].length
              + (model1.reactions.filter (split_cond ["A"])).length ∧
        N.constraints = model1.constraints) :=
  ⟨by decide, by decide,
    split_mode_reaction_growth model1 ["A"] 2 (by decide) (by decide) (by decide)
      (by decide) (by decide)⟩

/-- Claim C5: in split mode, every reversible non-boundary reaction R
touching a diluted metabolite yields a reverse copy named <id>__rev in the
returned model, with negated stoichiometry, lower bound 0, upper bound equal
to the pre-split upper bound of R and the gene-reaction rule of R, while R
itself appears renamed <id>__fwd with lower bound 0 and its upper bound,
stoichiometry and gene-reaction rule unchanged. -/
theorem split_halves_properties (M : Model) (ids : List String) (df : ℚ)
    (hdf : 0 < df) (hne : ids ≠ [])
    (hpres : ∀ i ∈ ids, (M.getMetById i).isSome)
    (hfresh1 : ∀ r ∈ M.reactions, ∀ i ∈ ids, r.id ≠ i ++ "_dilution")
    (hfresh2 : ∀ r0 ∈ M.reactions, ∀ r ∈ M.reactions, r0.id ≠ r.id ++ "__rev")
    (R : Reaction) (hR : R ∈ M.reactions) (hcond : split_cond ids R = true) :
    ∃ N, add_dilution_constraints M (some (ids.map MetArg.str)) true df = .ok N ∧
      (∃ r ∈ N.reactions, r.id = R.id ++ "__rev" ∧
        r.stoich = R.stoich.map (fun p => (p.1, -p.2)) ∧
        r.lower_bound = Flt.fin 0 ∧ r.upper_bound = R.upper_bound ∧
        r.gene_reaction_rule = R.gene_reaction_rule) ∧
      (∃ r ∈ N.reactions, r.id = R.id ++ "__fwd" ∧ r.lower_bound = Flt.fin 0 ∧
        r.upper_bound = R.upper_bound ∧ r.stoich = R.stoich ∧
        r.gene_reaction_rule = R.gene_reaction_rule) := by
  have hlen : 0 < ids.length := List.length_pos.mpr hne
  rcases lookup_mets_ok M ids hpres with ⟨ms, hms, hrel⟩
  refine ⟨_, split_run M ids df hdf hlen hms, ?_, ?_⟩
  · refine ⟨(make_irrev R).2, ?_, rfl, rfl, rfl, rfl, rfl⟩
    rw [split_reactions_closed M ids hrel hfresh1 hfresh2]
    apply List.mem_append_right
    apply List.mem_append_right
    rw [split_snd]
    exact List.mem_map.mpr ⟨R, List.mem_filter.mpr ⟨hR, hcond⟩, rfl⟩
  · refine ⟨(make_irrev R).1, ?_, rfl, rfl, rfl, rfl, rfl⟩
    rw [split_reactions_closed M ids hrel hfresh1 hfresh2]
    apply List.mem_append_left
    rw [split_fst]
    refine List.mem_map.mpr ⟨R, hR, ?_⟩
    rw [if_pos hcond]

/-- Witness for claim C5: splitting model1 while diluting A turns R1 into
R1__fwd and adds R1__rev with negated stoichiometry. -/
theorem split_halves_properties_witness :
    (0 : ℚ) < 2 ∧ rxnR1 ∈ model1.reactions ∧ split_cond ["A"] rxnR1 = true ∧
      (∃ N, add_dilution_constraints model1 (some (["A"].map MetArg.str)) true 2
          = .ok N ∧
        (∃ r ∈ N.reactions, r.id = rxnR1.id ++ "__rev" ∧
          r.stoich = rxnR1.stoich.map (fun p => (p.1, -p.2)) ∧
          r.lower_bound = Flt.fin 0 ∧ r.upper_bound = rxnR1.upper_bound ∧
          r.gene_reaction_rule = rxnR1.gene_reaction_rule) ∧
        (∃ r ∈ N.reactions, r.id = rxnR1.id ++ "__fwd" ∧ r.lower_bound = Flt.fin 0 ∧
          r.upper_bound = rxnR1.upper_bound ∧ r.stoich = rxnR1.stoich ∧
          r.gene_reaction_rule = rxnR1.gene_reaction_rule)) :=
  ⟨by decide, by decide, by decide,
    split_halves_properties model1 ["A"] 2 (by decide) (by decide) (by decide)
      (by decide) (by decide) rxnR1 (by decide) (by decide)⟩

lemma exprCoeff_append (e1 e2 : LinExpr) (v : FluxVar) :
    exprCoeff (e1 ++ e2) v = exprCoeff e1 v + exprCoeff e2 v := by
  simp [exprCoeff]

lemma step_eq (df : ℚ) (acc : LinExpr) (r : Reaction) :
    (if strContains r.id "dilution" then
        acc ++ [(FluxVar.fwd r.id, -df), (FluxVar.rev r.id, df)]
      else acc ++ [(FluxVar.fwd r.id, 1), (FluxVar.rev r.id, 1)])
      = acc ++ dilution_pairs df r := by
  unfold dilution_pairs
  by_cases h : strContains r.id "dilution" = true
  · rw [if_pos h, if_pos h]
  · rw [if_neg h, if_neg h]

/-- Coefficient of a variable in the folded constraint expression: the sum of
the per-reaction contributions. -/
lemma fold_coeff (df : ℚ) (v : FluxVar) (rs : List Reaction) (init : LinExpr) :
    exprCoeff
        (rs.foldl
          (fun acc r =>
            if strContains r.id "dilution" then
              acc ++ [(FluxVar.fwd r.id, -df), (FluxVar.rev r.id, df)]
            else acc ++ [(FluxVar.fwd r.id, 1), (FluxVar.rev r.id, 1)])
          init) v
      = exprCoeff init v
          + (rs.map (fun r => exprCoeff (dilution_pairs df r) v)).sum := by
  have hfun : (fun (acc : LinExpr) (r : Reaction) =>
      if strContains r.id "dilution" then
        acc ++ [(FluxVar.fwd r.id, -df), (FluxVar.rev r.id, df)]
      else acc ++ [(FluxVar.fwd r.id, 1), (FluxVar.rev r.id, 1)])
      = fun acc r => acc ++ dilution_pairs df r := by
    funext acc r
    exact step_eq df acc r
  rw [hfun]
  induction rs generalizing init with
  | nil => simp
  | cons r rest ih =>
    simp only [List.foldl_cons, List.map_cons, List.sum_cons]
    rw [ih, exprCoeff_append]
    ring

lemma dilution_pairs_coeff_fwd (df : ℚ) (r : Reaction) :
    exprCoeff (dilution_pairs df r) (FluxVar.fwd r.id)
      = if strContains r.id "dilution" then -df else 1 := by
  unfold dilution_pairs
  by_cases h : strContains r.id "dilution" = true
  · simp [h, exprCoeff]
  · simp [h, exprCoeff]

lemma dilution_pairs_coeff_rev (df : ℚ) (r : Reaction) :
    exprCoeff (dilution_pairs df r) (FluxVar.rev r.id)
      = if strContains r.id "dilution" then df else 1 := by
  unfold dilution_pairs
  by_cases h : strContains r.id "dilution" = true
  · simp [h, exprCoeff]
  · simp [h, exprCoeff]

lemma dilution_pairs_coeff_other (df : ℚ) (r : Reaction) (v : FluxVar)
    (hv1 : v ≠ FluxVar.fwd r.id) (hv2 : v ≠ FluxVar.rev r.id) :
    exprCoeff (dilution_pairs df r) v = 0 := by
  unfold dilution_pairs
  by_cases h : strContains r.id "dilution" = true
  · simp [h, exprCoeff, (Ne.symm hv1), (Ne.symm hv2)]
  · simp [h, exprCoeff, (Ne.symm hv1), (Ne.symm hv2)]

lemma sum_contrib_zero (df : ℚ) (v : FluxVar) {rs : List Reaction}
    (h : ∀ r ∈ rs, v ≠ FluxVar.fwd r.id ∧ v ≠ FluxVar.rev r.id) :
    (rs.map (fun r => exprCoeff (dilution_pairs df r) v)).sum = 0 := by
  induction rs with
  | nil => rfl
  | cons r rest ih =>
    simp only [List.map_cons, List.sum_cons]
    rcases h r (List.mem_cons_self r rest) with ⟨h1, h2⟩
    rw [dilution_pairs_coeff_other df r v h1 h2,
      ih (fun r1 hr1 => h r1 (List.mem_cons_of_mem _ hr1))]
    ring

/-- With pairwise-distinct reaction ids, the whole sum reduces to the
contribution of the one reaction owning the variable. -/
lemma sum_contrib_mem (df : ℚ) (v : FluxVar) {rs : List Reaction} {r0 : Reaction}
    (hnodup : (rs.map Reaction.id).Nodup) (hr0 : r0 ∈ rs)
    (hv : v = FluxVar.fwd r0.id ∨ v = FluxVar.rev r0.id) :
    (rs.map (fun r => exprCoeff (dilution_pairs df r) v)).sum
      = exprCoeff (dilution_pairs df r0) v := by
  rcases List.append_of_mem hr0 with ⟨l1, l2, rfl⟩
  rw [List.map_append, List.sum_append, List.map_cons, List.sum_cons]
  have hids := hnodup
  rw [List.map_append, List.map_cons, List.nodup_append] at hids
  rcases hids with ⟨_, h2, hdisj⟩
  rcases List.nodup_cons.mp h2 with ⟨hnotin2, _⟩
  have hnotin1 : r0.id ∉ l1.map Reaction.id := by
    intro hmem
    exact hdisj hmem (List.mem_cons_self _ _)
  have hzero : ∀ (l : List Reaction), r0.id ∉ l.map Reaction.id →
      (l.map (fun r => exprCoeff (dilution_pairs df r) v)).sum = 0 := by
    intro l hl
    apply sum_contrib_zero
    intro r hr
    have hne : r0.id ≠ r.id := by
      intro he
      exact hl (he ▸ List.mem_map.mpr ⟨r, hr, rfl⟩)
    rcases hv with rfl | rfl
    · exact ⟨fun h => hne (FluxVar.fwd.inj h), fun h => FluxVar.noConfusion h⟩
    · exact ⟨fun h => FluxVar.noConfusion h, fun h => hne (FluxVar.rev.inj h)⟩
  rw [hzero l1 hnotin1, hzero l2 hnotin2]
  ring

/-- Every id of the form <prefix>_dilution passes the substring test of the
constraint fold. -/
lemma strContains_append_dilution (a : String) :
    strContains (a ++ "_dilution") "dilution" = true := by
  unfold strContains
  apply List.any_eq_true.mpr
  refine ⟨a.data.length + 1, ?_, ?_⟩
  · apply List.mem_range.mpr
    have hlen : (a ++ "_dilution").toList.length = a.data.length + 9 := by
      show (a ++ "_dilution").data.length = _
      rw [String.data_append]
      simp
    omega
  · show "dilution".toList.isPrefixOf
        ((a ++ "_dilution").toList.drop (a.data.length + 1)) = true
    have hdata : (a ++ "_dilution").toList = (a.data ++ ['_']) ++ "dilution".data := by
      show (a ++ "_dilution").data = _
      rw [String.data_append, List.append_assoc]
      rfl
    have hlen2 : a.data.length + 1 = (a.data ++ ['_']).length := by simp
    rw [hdata, hlen2, List.drop_left]
    decide

/-- Appending a fixed suffix to strings is injective. -/
lemma append_right_injective (t : String) :
    Function.Injective (fun s => s ++ t) := by
  intro a b h
  simp only at h
  apply String.ext
  have : (a ++ t).data = (b ++ t).data := by rw [h]
  rw [String.data_append, String.data_append] at this
  exact List.append_cancel_right this

/-- Coefficient function of a successfully built dilution constraint. -/
lemma make_dilution_constraint_expr {model : Model} {i : String} {df : ℚ}
    {c : Constraint} (h : make_dilution_constraint model i df = some c) :
    ∀ v, exprCoeff c.expr v
      = ((met_rxns model i).map (fun r => exprCoeff (dilution_pairs df r) v)).sum := by
  unfold make_dilution_constraint at h
  cases hm : model.getMetById i with
  | none =>
    rw [hm] at h
    cases h
  | some met =>
    simp only [hm, Option.some.injEq] at h
    subst h
    intro v
    have hid : met.id = i := getMetById_id hm
    simp only [hid]
    rw [fold_coeff]
    simp [exprCoeff]

/-- Registering constraints does not change which reactions touch a
metabolite. -/
lemma met_rxns_add_cons_vars (model : Model) (cs : List Constraint) (i : String) :
    met_rxns (model.add_cons_vars cs) i = met_rxns model i := by
  simp [met_rxns, Model.add_cons_vars]

/-- Claim C1 (amended): for a diluted metabolite id i, the returned model
holds a constraint named <i>_dilution_constraint with bounds (0, 0) whose
expression gives coefficient 1 to the forward and the reverse variable of
every reaction touching i whose id does not contain the substring dilution,
coefficients minus and plus dil_factor to the forward and the reverse
variable of every reaction touching i whose id does contain that substring
(in particular the dilution reaction of i itself), and 0 to every other
variable: the source selects the subtracted branch by the substring test on
the reaction id, not by identity with the dilution reaction of i. -/
theorem dilution_constraint_expression (M : Model) (ids : List String) (df : ℚ)
    (hdf : 0 < df) (hne : ids ≠ [])
    (hpres : ∀ i ∈ ids, (M.getMetById i).isSome)
    (hfresh : ∀ r ∈ M.reactions, ∀ i ∈ ids, r.id ≠ i ++ "_dilution")
    (hnodupM : (M.reactions.map Reaction.id).Nodup) (hnodup : ids.Nodup)
    (i : String) (hi : i ∈ ids) :
    ∃ N, add_dilution_constraints M (some (ids.map MetArg.str)) false df = .ok N ∧
      ∃ c ∈ N.constraints, c.name = i ++ "_dilution_constraint" ∧
        c.lb = 0 ∧ c.ub = 0 ∧
        (∀ r ∈ met_rxns N i,
          (strContains r.id "dilution" = false →
            exprCoeff c.expr (FluxVar.fwd r.id) = 1 ∧
              exprCoeff c.expr (FluxVar.rev r.id) = 1) ∧
          (strContains r.id "dilution" = true →
            exprCoeff c.expr (FluxVar.fwd r.id) = -df ∧
              exprCoeff c.expr (FluxVar.rev r.id) = df)) ∧
        (∀ rid : String, (∀ r ∈ met_rxns N i, r.id ≠ rid) →
          exprCoeff c.expr (FluxVar.fwd rid) = 0 ∧
            exprCoeff c.expr (FluxVar.rev rid) = 0) ∧
        (∃ rdil ∈ met_rxns N i, rdil.id = i ++ "_dilution" ∧
          exprCoeff c.expr (FluxVar.fwd rdil.id) = -df ∧
            exprCoeff c.expr (FluxVar.rev rdil.id) = df) := by
  have hlen : 0 < ids.length := List.length_pos.mpr hne
  rcases lookup_mets_ok M ids hpres with ⟨ms, hms, hrel⟩
  have hpres2 : ∀ j ∈ ids,
      ((M.add_reactions (ms.map make_dilution_reaction)).getMetById j).isSome := by
    intro j hj
    rcases Option.isSome_iff_exists.mp (hpres j hj) with ⟨met, hmet⟩
    rw [getMetById_add_reactions M _ hmet]
    rfl
  rcases build_constraints_ok (M.add_reactions (ms.map make_dilution_reaction)) df ids
    hpres2 with ⟨cs, hcs, hcrel⟩
  have hreact : (M.add_reactions (ms.map make_dilution_reaction)).reactions
      = M.reactions ++ ms.map make_dilution_reaction := by
    apply add_reactions_fresh
    intro r hr r0 hr0
    rcases List.mem_map.mp hr with ⟨m, hm, rfl⟩
    rcases forall₂_mem_right hrel m hm with ⟨j, hj, hmj⟩
    have hidj : m.id = j := getMetById_id hmj
    simpa [make_dilution_reaction, cobra_reaction, hidj] using hfresh r0 hr0 j hj
  have hcons : (M.add_reactions (ms.map make_dilution_reaction)).constraints
      = M.constraints := by
    simp [Model.add_reactions]
  have hmapids : ms.map (fun m => m.id ++ "_dilution")
      = ids.map (fun j => j ++ "_dilution") := by
    apply forall₂_map_eq hrel
    intro j m hmj
    rw [getMetById_id hmj]
  have hnodup2 : ((M.add_reactions (ms.map make_dilution_reaction)).reactions.map
      Reaction.id).Nodup := by
    rw [hreact, List.map_append, List.map_map]
    have hcomp : (Reaction.id ∘ make_dilution_reaction)
        = fun m => m.id ++ "_dilution" := rfl
    rw [hcomp, hmapids]
    apply List.nodup_append.mpr
    refine ⟨hnodupM, List.Nodup.map (append_right_injective "_dilution") hnodup, ?_⟩
    intro a ha1 ha2
    rcases List.mem_map.mp ha1 with ⟨r, hr, rfl⟩
    rcases List.mem_map.mp ha2 with ⟨j, hj, hjeq⟩
    exact hfresh r hr j hj hjeq.symm
  rcases forall₂_mem_left hrel i hi with ⟨m, hm, hmi⟩
  have hid : m.id = i := getMetById_id hmi
  rcases forall₂_mem_left hcrel i hi with ⟨c, hcmem, hc⟩
  refine ⟨(M.add_reactions (ms.map make_dilution_reaction)).add_cons_vars cs,
    nonsplit_run M ids df hdf hlen hms hcs, c, ?_, ?_⟩
  · simp only [Model.add_cons_vars]
    rw [hcons]
    exact List.mem_append_right _ hcmem
  · rcases make_dilution_constraint_shape hc with ⟨hname, hlb, hub⟩
    have hmrw : met_rxns
        ((M.add_reactions (ms.map make_dilution_reaction)).add_cons_vars cs) i
        = met_rxns (M.add_reactions (ms.map make_dilution_reaction)) i :=
      met_rxns_add_cons_vars _ cs i
    have htouchnodup : ((met_rxns (M.add_reactions (ms.map make_dilution_reaction)) i).map
        Reaction.id).Nodup :=
      List.Nodup.sublist (List.Sublist.map _ (List.filter_sublist _)) hnodup2
    have hcoeff := make_dilution_constraint_expr hc
    refine ⟨hname, hlb, hub, ?_, ?_, ?_⟩
    · intro r hr
      rw [hmrw] at hr
      constructor
      · intro hnotdil
        constructor
        · rw [hcoeff (FluxVar.fwd r.id),
            sum_contrib_mem df _ htouchnodup hr (Or.inl rfl),
            dilution_pairs_coeff_fwd, hnotdil]
          rfl
        · rw [hcoeff (FluxVar.rev r.id),
            sum_contrib_mem df _ htouchnodup hr (Or.inr rfl),
            dilution_pairs_coeff_rev, hnotdil]
          rfl
      · intro hdil
        constructor
        · rw [hcoeff (FluxVar.fwd r.id),
            sum_contrib_mem df _ htouchnodup hr (Or.inl rfl),
            dilution_pairs_coeff_fwd, hdil]
          rfl
        · rw [hcoeff (FluxVar.rev r.id),
            sum_contrib_mem df _ htouchnodup hr (Or.inr rfl),
            dilution_pairs_coeff_rev, hdil]
          rfl
    · intro rid hrid
      constructor
      · rw [hcoeff (FluxVar.fwd rid)]
        apply sum_contrib_zero
        intro r hr
        have hne2 : r.id ≠ rid := hrid r (hmrw ▸ hr)
        exact ⟨fun h => hne2 (FluxVar.fwd.inj h).symm, fun h => FluxVar.noConfusion h⟩
      · rw [hcoeff (FluxVar.rev rid)]
        apply sum_contrib_zero
        intro r hr
        have hne2 : r.id ≠ rid := hrid r (hmrw ▸ hr)
        exact ⟨fun h => FluxVar.noConfusion h, fun h => hne2 (FluxVar.rev.inj h).symm⟩
    · refine ⟨make_dilution_reaction m, ?_, ?_, ?_, ?_⟩
      · rw [hmrw]
        apply List.mem_filter.mpr
        constructor
        · rw [hreact]
          exact List.mem_append_right _ (List.mem_map.mpr ⟨m, hm, rfl⟩)
        · simp [make_dilution_reaction, cobra_reaction, hid]
      · simp [make_dilution_reaction, cobra_reaction, hid]
      · have hmem2 : make_dilution_reaction m
            ∈ met_rxns (M.add_reactions (ms.map make_dilution_reaction)) i := by
          apply List.mem_filter.mpr
          constructor
          · rw [hreact]
            exact List.mem_append_right _ (List.mem_map.mpr ⟨m, hm, rfl⟩)
          · simp [make_dilution_reaction, cobra_reaction, hid]
        have hdil : strContains (make_dilution_reaction m).id "dilution" = true := by
          have : (make_dilution_reaction m).id = m.id ++ "_dilution" := rfl
          rw [this]
          exact strContains_append_dilution m.id
        rw [hcoeff (FluxVar.fwd (make_dilution_reaction m).id),
          sum_contrib_mem df _ htouchnodup hmem2 (Or.inl rfl),
          dilution_pairs_coeff_fwd, hdil]
        rfl
      · have hmem2 : make_dilution_reaction m
            ∈ met_rxns (M.add_reactions (ms.map make_dilution_reaction)) i := by
          apply List.mem_filter.mpr
          constructor
          · rw [hreact]
            exact List.mem_append_right _ (List.mem_map.mpr ⟨m, hm, rfl⟩)
          · simp [make_dilution_reaction, cobra_reaction, hid]
        have hdil : strContains (make_dilution_reaction m).id "dilution" = true := by
          have : (make_dilution_reaction m).id = m.id ++ "_dilution" := rfl
          rw [this]
          exact strContains_append_dilution m.id
        rw [hcoeff (FluxVar.rev (make_dilution_reaction m).id),
          sum_contrib_mem df _ htouchnodup hmem2 (Or.inr rfl),
          dilution_pairs_coeff_rev, hdil]
        rfl

/-- Witness for claim C1: diluting A in model1 with dilution factor 2 gives
the constraint of the spec scenario, with coefficient 1 on both R1 variables
and minus and plus 2 on the A_dilution variables. -/
theorem dilution_constraint_expression_witness :
    (0 : ℚ) < 2 ∧ (["A"] : List String) ≠ [] ∧
      (∃ N, add_dilution_constraints model1 (some (["A"].map MetArg.str)) false 2
          = .ok N ∧
        ∃ c ∈ N.constraints, c.name = "A" ++ "_dilution_constraint" ∧
          c.lb = 0 ∧ c.ub = 0 ∧
          (∀ r ∈ met_rxns N "A",
            (strContains r.id "dilution" = false →
              exprCoeff c.expr (FluxVar.fwd r.id) = 1 ∧
                exprCoeff c.expr (FluxVar.rev r.id) = 1) ∧
            (strContains r.id "dilution" = true →
              exprCoeff c.expr (FluxVar.fwd r.id) = -2 ∧
                exprCoeff c.expr (FluxVar.rev r.id) = 2)) ∧
          (∀ rid : String, (∀ r ∈ met_rxns N "A", r.id ≠ rid) →
            exprCoeff c.expr (FluxVar.fwd rid) = 0 ∧
              exprCoeff c.expr (FluxVar.rev rid) = 0) ∧
          (∃ rdil ∈ met_rxns N "A", rdil.id = "A" ++ "_dilution" ∧
            exprCoeff c.expr (FluxVar.fwd rdil.id) = -2 ∧
              exprCoeff c.expr (FluxVar.rev rdil.id) = 2)) :=
  ⟨by decide, by decide,
    dilution_constraint_expression model1 ["A"] 2 (by decide) (by decide) (by decide)
      (by decide) (by decide) (by decide) "A" (by decide)⟩

/-- Counterexample to claim C1 as stated: in cexModel the reaction Rdilution
touches X and is not the dilution reaction of X, so the claim prescribes
coefficient 1 on its forward variable (as claimedExprX records), but the code
tests the substring dilution against every reaction id and the built
constraint carries coefficient -2 there instead. -/
theorem dilution_substring_counterexample :
    (add_dilution_constraints cexModel (some [MetArg.str "X"]) false 2).map
        (fun N => N.constraints.map (fun c =>
          (c.name, exprCoeff c.expr (FluxVar.fwd "Rdilution"))))
      = .ok [("X_dilution_constraint", -2)] ∧
      exprCoeff claimedExprX (FluxVar.fwd "Rdilution") = 1 ∧
      (-2 : ℚ) ≠ 1 :=
  ⟨by with_unfolding_all decide, by with_unfolding_all decide, by decide⟩
